import Mathlib

/-!
Verification of the charabia segmentation core (`src/charabia/src/segmenter/`).

Strings are modelled as `List Char` (Unicode scalar values); byte quantities
use the UTF-8 size of each character, so byte offsets match the Rust
`str::len` / byte-index arithmetic of the source.  External collaborators
that are not part of this repository's sources (the script/language
detector, the Aho-Corasick separator automaton, the FST dictionary engine,
the camel-case boundary splitter and the CJK morphological analyzer) are
modelled from the specification, each marked `Modelled from the spec:` in
its doc comment; everything else is a direct translation of the Rust code
in `src/charabia/src/segmenter/mod.rs`, `arabic.rs`, `latin/mod.rs`,
`thai.rs` and `chinese.rs`.
-/

namespace Charabia

/-- Closed enumeration of writing-script classes, as used by the segmenter
registry keys in `mod.rs` (`Script::Latin`, `Script::Cj`, `Script::Hangul`,
`Script::Arabic`, `Script::Thai`, `Script::Other`). -/
inductive Script where
  | Latin
  | Cj
  | Hangul
  | Arabic
  | Thai
  | Other
deriving DecidableEq, Repr

/-- Closed enumeration of language tags used by the registry keys in
`mod.rs`, with the wildcard `Other`. -/
inductive Language where
  | Cmn
  | Jpn
  | Kor
  | Tha
  | Ara
  | Other
deriving DecidableEq, Repr

/-- Sub-span item produced by a segmenter, mirroring `TokenItem` in
`mod.rs` lines 285-296: either a bare slice, or a slice with explicit
char/byte offsets relative to the slice passed to the segmenter plus the
`is_last_token` flag. -/
inductive TokenItem where
  | Simple : List Char → TokenItem
  | WithPosition : List Char → Nat → Nat → Nat → Nat → Bool → TokenItem
deriving DecidableEq, Repr

/-- Externally visible token, mirroring the fields of `Token` that the
segmenter core writes (`mod.rs` lines 96-117): lemma and absolute char/byte
offsets.  The `script`/`language` fields propagated from the run are not
needed by any claim and are omitted. -/
structure Token where
  lemma' : List Char
  char_start : Nat
  char_end : Nat
  byte_start : Nat
  byte_end : Nat
deriving DecidableEq, Repr

/-- UTF-8 encoded length of a character list, matching Rust `str::len`. -/
def utf8Len (s : List Char) : Nat :=
  (s.map Char.utf8Size).sum

/-- Text carried by a `TokenItem`. -/
def TokenItem.text : TokenItem → List Char
  | .Simple s => s
  | .WithPosition s _ _ _ _ _ => s

/-- Concatenation of the texts of a sub-span stream. -/
def joinItems (items : List TokenItem) : List Char :=
  items.flatMap TokenItem.text

/-- Concatenation of the lemmas of a token stream. -/
def joinLemmas (toks : List Token) : List Char :=
  toks.flatMap Token.lemma'

/-! ## Position resolver (`SegmentedTokenIter::next`, mod.rs lines 83-126) -/

/-- Cursor state of `SegmentedTokenIter`: the `char_index` and `byte_index`
fields (mod.rs lines 79-80). -/
structure Cursor where
  char_index : Nat
  byte_index : Nat
deriving DecidableEq, Repr

/-- One step of `SegmentedTokenIter::next` (mod.rs lines 86-125): a
`Simple` item yields a token spanning from the cursor over the lemma's
length, then advances the cursor; a `WithPosition` item yields a token at
cursor + relative offsets and advances the cursor (by the item's own end
offsets) only when `is_last_token` is set. -/
def resolveStep (st : Cursor) : TokenItem → Token × Cursor
  | .Simple lem =>
      let ce := st.char_index + lem.length
      let be := st.byte_index + utf8Len lem
      (⟨lem, st.char_index, ce, st.byte_index, be⟩, ⟨ce, be⟩)
  | .WithPosition text cs ce bs be last =>
      (⟨text, st.char_index + cs, st.char_index + ce,
        st.byte_index + bs, st.byte_index + be⟩,
       if last then ⟨st.char_index + ce, st.byte_index + be⟩ else st)

/-- Fold of `resolveStep` over a sub-span stream, producing the token
stream. -/
def resolveGo (st : Cursor) : List TokenItem → List Token
  | [] => []
  | it :: rest =>
      (resolveStep st it).1 :: resolveGo (resolveStep st it).2 rest

/-- Cursor value after processing a sub-span stream. -/
def resolveState (st : Cursor) : List TokenItem → Cursor
  | [] => st
  | it :: rest => resolveState (resolveStep st it).2 rest

/-- Whole-stream position resolution, seeded at `(0, 0)` exactly as the
`From<SegmentedStrIter>` impl does (mod.rs line 130). -/
def resolve (items : List TokenItem) : List Token :=
  resolveGo ⟨0, 0⟩ items

/-! ## Arabic segmenter (`arabic.rs`) -/

/-- Five definite-article prefix variants checked by
`ArabicSegmenter::segment_str` (arabic.rs lines 18-23), each two 2-byte
characters. -/
def arabicArticles : List (List Char) :=
  [['ا', 'ل'], ['أ', 'ل'], ['إ', 'ل'], ['آ', 'ل'], ['ٱ', 'ل']]

/-- Does the span start with one of the five article variants? -/
def startsWithArticle (s : List Char) : Bool :=
  arabicArticles.any (fun p => p.isPrefixOf s)

/-- Translation of `ArabicSegmenter::segment_str` (arabic.rs lines 15-35):
if the byte length of the span exceeds 2 (`to_segment.len() > 2`) and the
span starts with one of the five articles, yield the first 4 bytes and the
remainder; otherwise yield the whole span.  Each matching article is two
2-byte characters, so the Rust byte slices `[..4]` / `[4..]` are exactly
`take 2` / `drop 2` on the character list. -/
def arabicSegmentStr (s : List Char) : List TokenItem :=
  if 2 < utf8Len s ∧ startsWithArticle s then
    [.Simple (s.take 2), .Simple (s.drop 2)]
  else
    [.Simple s]

example : arabicSegmentStr ("الشجرة".data) =
    [.Simple ("ال".data), .Simple ("شجرة".data)] := by decide

example : arabicSegmentStr ("بانيا".data) = [.Simple ("بانيا".data)] := by
  decide

example : arabicSegmentStr ("ال".data) =
    [.Simple ("ال".data), .Simple []] := by decide

/-! ## Script-run splitter (`SegmentedStrIter::new`, mod.rs lines 144-165) -/

/-- Stateful key assignment of the `linear_group_by_key` closure
(mod.rs lines 146-153): the running `current_script` is updated to the
character's script exactly when that script is not `Other` and differs from
the current one; each character is paired with the resulting key.  The
update rule simplifies to: keep the current key on an `Other` character,
otherwise switch to the character's script. -/
def runKeysGo (classify : Char → Script) (cur : Script) :
    List Char → List (Char × Script)
  | [] => []
  | c :: rest =>
      let sc := classify c
      let cur2 := if sc = Script.Other then cur else sc
      (c, cur2) :: runKeysGo classify cur2 rest

/-- Grouping of consecutive equal keys, the semantics of
`linear_group_by_key` from the `slice_group_by` crate used at mod.rs line
147: maximal blocks of adjacent characters sharing one key. -/
def groupRuns : List (Char × Script) → List (List Char × Script)
  | [] => []
  | (c, k) :: rest =>
      match groupRuns rest with
      | [] => [([c], k)]
      | g :: more =>
          if k = g.2 then ((c :: g.1), k) :: more else ([c], k) :: g :: more

/-- Script-run splitter: the `inner` iterator built by
`SegmentedStrIter::new`, with the initial `current_script` set to
`Script::Other` (mod.rs line 146). -/
def scriptRuns (classify : Char → Script) (s : List Char) :
    List (List Char × Script) :=
  groupRuns (runKeysGo classify Script.Other s)

/-! ## Separator automaton (Modelled from the spec) and
`AhoSegmentedStrIter` (mod.rs lines 198-242) -/

/-- One step of the longest-word scan: keep the longer of the accumulator
and the candidate, provided the candidate is non-empty and starts the
span; earlier words win ties. -/
def bestStep (s : List Char) (acc : Option (List Char)) (w : List Char) :
    Option (List Char) :=
  if w ≠ [] ∧ w.isPrefixOf s then
    match acc with
    | none => some w
    | some v => if v.length < w.length then some w else some v
  else acc

/-- Longest non-empty element of a fixed word list that starts the span,
or `none`.  Shared by the model of the Aho-Corasick matcher and the model
of the FST dictionary query. -/
def bestDictEntry (dict : List (List Char)) (s : List Char) :
    Option (List Char) :=
  dict.foldl (bestStep s) none

/-- Length of the longest non-empty pattern matching at the start of `s`,
or `none`.  Part of the model of the external Aho-Corasick matcher. -/
def bestPatLen (patterns : List (List Char)) (s : List Char) : Option Nat :=
  (bestDictEntry patterns s).map List.length

/-- Fuelled scan for leftmost-longest matches: at each position report the
longest pattern starting there (if any) and resume after its end, else move
one character right.  The fuel only bounds the recursion; `fuel ≥ s.length`
never runs out. -/
def ahoMatchesGo (patterns : List (List Char)) :
    Nat → List Char → Nat → List (Nat × Nat)
  | 0, _, _ => []
  | _ + 1, [], _ => []
  | fuel + 1, c :: rest, pos =>
      match bestPatLen patterns (c :: rest) with
      | some n => (pos, pos + n) :: ahoMatchesGo patterns fuel ((c :: rest).drop n) (pos + n)
      | none => ahoMatchesGo patterns fuel rest (pos + 1)

/-- Modelled from the spec: the external Aho-Corasick automaton in
leftmost-longest mode (`DEFAULT_SEPARATOR_AHO`, mod.rs lines 72-74, and
spec §2: "matches are leftmost-longest, non-overlapping").  Returns the
half-open character-index ranges of the reported matches, in order. -/
def ahoMatches (patterns : List (List Char)) (s : List Char) :
    List (Nat × Nat) :=
  ahoMatchesGo patterns s.length s 0

/-- Match/gap tag, mirroring `MatchType` (mod.rs lines 244-247). -/
inductive MatchType where
  | Match
  | Interleave
deriving DecidableEq, Repr

/-- Half-open slice of a character list. -/
def sliceOf (text : List Char) (a b : Nat) : List Char :=
  (text.drop a).take (b - a)

/-- Translation of `AhoSegmentedStrIter::next` (mod.rs lines 210-242)
driven by a match list: before each match the gap from the previous
position is emitted when non-empty (`start < end`), then the match itself,
then the scan resumes after the match; after the last match the trailing
gap is emitted when non-empty. -/
def ahoSegsGo (text : List Char) (left : Nat) :
    List (Nat × Nat) → List (List Char × MatchType)
  | [] =>
      if left < text.length then [(sliceOf text left text.length, .Interleave)]
      else []
  | (ms, me) :: rest =>
      (if left < ms then [(sliceOf text left ms, MatchType.Interleave)] else []) ++
      (if ms < me then [(sliceOf text ms me, MatchType.Match)] else []) ++
      ahoSegsGo text me rest

/-- Alternating gap/match decomposition of one script run, as produced by
`AhoSegmentedStrIter` over the automaton's matches. -/
def ahoSegments (patterns : List (List Char)) (text : List Char) :
    List (List Char × MatchType) :=
  ahoSegsGo text 0 (ahoMatches patterns text)

/-! ## Registry dispatch (`segmenter`, mod.rs lines 255-276) -/

/-- Association-list lookup, the model of `HashMap::get` on the registry. -/
def lookupKey {α : Type} (registry : List ((Script × Language) × α))
    (key : Script × Language) : Option α :=
  match registry.find? (fun e => e.1 = key) with
  | some e => some e.2
  | none => none

/-- Translation of the `segmenter` dispatch function (mod.rs lines
255-276), with the registry and the default segmenter as parameters and
the language detector as a thunk.  The returned boolean records whether the
language detector was invoked: it is exactly the third match arm, where
several registry entries share the detected script.  In the Rust code the
first two arms inspect the first two elements of the filtered iterator,
which is the same as matching the filtered list against `[]` and `[e]`. -/
def dispatch {α : Type} (registry : List ((Script × Language) × α))
    (dflt : α) (detected_script : Script) (detectLang : Unit → Language) :
    α × Bool :=
  match registry.filter (fun e => e.1.1 = detected_script) with
  | [] => (dflt, false)
  | [e] => (e.2, false)
  | _ =>
      let detected_language := detectLang ()
      (((lookupKey registry (detected_script, detected_language)).orElse
          (fun _ => lookupKey registry (detected_script, Language.Other))).getD
        dflt, true)

/-! ## Composer and full pipeline (`SegmentedStrIter::next`,
mod.rs lines 167-196) -/

/-- Within one run: each automaton match becomes a `Simple` item verbatim
(mod.rs line 174) and each gap is fed to the chosen segmenter (mod.rs
line 176); the per-gap streams are flattened in order. -/
def composeRun (seg : List Char → List TokenItem)
    (patterns : List (List Char)) (text : List Char) : List TokenItem :=
  (ahoSegments patterns text).flatMap
    (fun p =>
      match p.2 with
      | .Match => [TokenItem.Simple p.1]
      | .Interleave => seg p.1)

/-- Full `segment_str` pipeline (mod.rs lines 167-196): split the input
into script runs, pick a segmenter for each run via detection and dispatch,
and compose each run against the separator automaton.  The external
script/language detectors are parameters (`text.detect`, out of scope per
spec §1). -/
def segmentStrPipeline
    (classify : Char → Script)
    (detectScript : List Char → Script)
    (detectLang : List Char → Language)
    (registry : List ((Script × Language) × (List Char → List TokenItem)))
    (dflt : List Char → List TokenItem)
    (patterns : List (List Char)) (s : List Char) : List TokenItem :=
  (scriptRuns classify s).flatMap
    (fun run =>
      composeRun
        (dispatch registry dflt (detectScript run.1)
          (fun _ => detectLang run.1)).1
        patterns run.1)

/-- Full `segment` pipeline: `segment_str` followed by the position
resolver, seeded at `(0, 0)` (mod.rs lines 128-132). -/
def segmentPipeline
    (classify : Char → Script)
    (detectScript : List Char → Script)
    (detectLang : List Char → Language)
    (registry : List ((Script × Language) × (List Char → List TokenItem)))
    (dflt : List Char → List TokenItem)
    (patterns : List (List Char)) (s : List Char) : List Token :=
  resolve (segmentStrPipeline classify detectScript detectLang registry dflt
    patterns s)

/-! ## Latin segmenter (`latin/mod.rs`; camel-case splitter modelled) -/

/-- Modelled from the spec: the boundary test of the missing
`latin/camel_case.rs` module (`split_camel_case_bounds`), per spec §4.4:
a boundary falls immediately before an uppercase letter that follows a
lowercase letter, and between a letter sequence and a digit sequence in
either order. -/
def camelBoundary (c1 c2 : Char) : Bool :=
  (c1.isLower && c2.isUpper) || (c1.isAlpha && c2.isDigit) ||
    (c1.isDigit && c2.isAlpha)

/-- Accumulating scan for `splitCamelCaseBounds`: `accRev` holds the
current chunk reversed, `prev` the previous character. -/
def camelGo (accRev : List Char) (prev : Char) :
    List Char → List (List Char)
  | [] => [accRev.reverse]
  | c :: rest =>
      if camelBoundary prev c then accRev.reverse :: camelGo [c] c rest
      else camelGo (c :: accRev) c rest

/-- Modelled from the spec: `camel_case::split_camel_case_bounds`
(latin/camel_case.rs, not present under src), cutting the span exactly at
`camelBoundary` positions and leaving everything else uncut. -/
def splitCamelCaseBounds : List Char → List (List Char)
  | [] => []
  | c :: rest => camelGo [c] c rest

/-- Translation of `LatinSegmenter::segment_str` with the
`latin-camelcase` feature (latin/mod.rs lines 18-27): map each chunk of
the camel-case split to a `Simple` item.  (Without the feature the whole
span is returned as one `Simple` item.) -/
def latinSegmentStr (s : List Char) : List TokenItem :=
  (splitCamelCaseBounds s).map TokenItem.Simple

example : splitCamelCaseBounds ("camelCase".data) =
    ["camel".data, "Case".data] := by decide

example : splitCamelCaseBounds ("kebab-case".data) = ["kebab-case".data] := by
  decide

/-! ## Dictionary / FST longest-match segmenter (`thai.rs`; the
`FstSegmenter` of utils.rs is modelled) -/

/-- Fuelled left-to-right greedy scan: emit the longest dictionary entry
starting at the current position and advance past it, else emit the single
character there and advance by one.  `fuel ≥ s.length` never runs out. -/
def fstSegmentGo (dict : List (List Char)) :
    Nat → List Char → List (List Char)
  | 0, _ => []
  | _ + 1, [] => []
  | fuel + 1, c :: rest =>
      match bestDictEntry dict (c :: rest) with
      | some w => w :: fstSegmentGo dict fuel ((c :: rest).drop w.length)
      | none => [c] :: fstSegmentGo dict fuel rest

/-- Modelled from the spec: the `FstSegmenter` of `segmenter/utils.rs`
(not present under src), per spec §4.4: greedy forward maximum matching
over an immutable word dictionary, singleton fallback. -/
def fstSegment (dict : List (List Char)) (s : List Char) :
    List (List Char) :=
  fstSegmentGo dict s.length s

/-- Translation of `ThaiSegmenter::segment_str` (thai.rs lines 19-28):
every chunk of the FST segmentation becomes a `Simple` item; the word
dictionary itself is an opaque binary asset, kept as a parameter. -/
def thaiSegmentStr (dict : List (List Char)) (s : List Char) :
    List TokenItem :=
  (fstSegment dict s).map TokenItem.Simple

example :
    fstSegment ["ab".data, "abc".data, "c".data] ("abcd".data) =
      ["abc".data, "d".data] := by decide

/-! ## CJK morphological segmenter (modelled) -/

/-- Modelled from the spec: the opaque Jieba-backed
`ChineseSegmenter::segment_str` (chinese.rs lines 17-29) emits
position-carrying sub-spans and, per spec §4.4, "may report multiple
overlapping candidate tokens per covered region", each with its own
offsets relative to the call's input and the last one flagged.  This model
pins its behaviour on the sample word 机器人, for which the repository's
own chinese.rs test data records the two overlapping candidates 机器 and
机器人; every other input is passed through unchanged. -/
def chineseModelSeg (s : List Char) : List TokenItem :=
  if s = "机器人".data then
    [.WithPosition ("机器".data) 0 2 0 6 false,
     .WithPosition ("机器人".data) 0 3 0 9 true]
  else
    [.Simple s]

/-! ## Concrete instantiations used by witnesses and counterexamples -/

/-- Concrete per-character script classifier: ASCII letters are Latin,
Arabic-block characters are Arabic, the core CJK unified-ideographs block
is Cj, everything else is Other.  A faithful fragment of the external
`Script::from(char)` classifier on the inputs used below. -/
def classifyDemo (c : Char) : Script :=
  if ('a' ≤ c ∧ c ≤ 'z') ∨ ('A' ≤ c ∧ c ≤ 'Z') then Script.Latin
  else if 0x600 ≤ c.toNat ∧ c.toNat ≤ 0x6FF then Script.Arabic
  else if 0x4E00 ≤ c.toNat ∧ c.toNat ≤ 0x9FFF then Script.Cj
  else Script.Other

/-- Concrete whole-run script detector consistent with `classifyDemo`:
the script of the first character whose class is not Other. -/
def detectScriptDemo (s : List Char) : Script :=
  match s.find? (fun c => classifyDemo c ≠ Script.Other) with
  | some c => classifyDemo c
  | none => Script.Other

/-- Concrete language detector for the demo runs: Mandarin for Cj runs,
Arabic for Arabic runs, wildcard otherwise. -/
def detectLangDemo (s : List Char) : Language :=
  match detectScriptDemo s with
  | Script.Cj => Language.Cmn
  | Script.Arabic => Language.Ara
  | _ => Language.Other

/-- Demo registry mirroring the `SEGMENTERS` table (mod.rs lines 46-67)
for the scripts exercised below: Latin, Mandarin and Arabic entries, with
the CJK entry backed by the modelled analyzer. -/
def registryDemo : List ((Script × Language) × (List Char → List TokenItem)) :=
  [((Script.Latin, Language.Other), latinSegmentStr),
   ((Script.Cj, Language.Cmn), chineseModelSeg),
   ((Script.Arabic, Language.Ara), arabicSegmentStr)]

/-- Default separator patterns used in the demos, a fragment of
`DEFAULT_SEPARATORS` containing the comma and the space. -/
def patternsDemo : List (List Char) :=
  [[','], [' ']]

/-! ## General helper lemmas -/

theorem utf8Len_append (a b : List Char) :
    utf8Len (a ++ b) = utf8Len a + utf8Len b := by
  simp [utf8Len]

theorem isPrefixOf_append_drop (w s : List Char) (h : w.isPrefixOf s) :
    w ++ s.drop w.length = s := by
  obtain ⟨r, rfl⟩ := List.isPrefixOf_iff_prefix.mp h
  simp

theorem sliceOf_append_drop (text : List Char) (a b : Nat) (h : a ≤ b) :
    sliceOf text a b ++ text.drop b = text.drop a := by
  have hd : text.drop b = (text.drop a).drop (b - a) := by
    rw [List.drop_drop]; congr 1; omega
  rw [sliceOf, hd, List.take_append_drop]

theorem sliceOf_ne_nil (text : List Char) (a b : Nat) (h1 : a < b)
    (h2 : a < text.length) : sliceOf text a b ≠ [] := by
  have : (sliceOf text a b).length = min (b - a) (text.length - a) := by
    simp [sliceOf]
  intro hnil
  rw [hnil] at this
  simp at this
  omega

/-! ## Position-resolver lemmas -/

theorem resolveStep_lemma (st : Cursor) (it : TokenItem) :
    (resolveStep st it).1.lemma' = it.text := by
  cases it <;> rfl

theorem resolveGo_lemma_join (items : List TokenItem) (st : Cursor) :
    joinLemmas (resolveGo st items) = joinItems items := by
  induction items generalizing st with
  | nil => rfl
  | cons it rest ih =>
      have h1 : joinLemmas (resolveGo st (it :: rest)) =
          (resolveStep st it).1.lemma' ++
            joinLemmas (resolveGo (resolveStep st it).2 rest) := by
        simp [resolveGo, joinLemmas, List.flatMap_cons]
      rw [h1, resolveStep_lemma, ih]
      simp [joinItems, List.flatMap_cons]

theorem resolveGo_append (st : Cursor) (xs ys : List TokenItem) :
    resolveGo st (xs ++ ys) =
      resolveGo st xs ++ resolveGo (resolveState st xs) ys := by
  induction xs generalizing st with
  | nil => rfl
  | cons it rest ih => simp [resolveGo, resolveState, ih]

theorem resolveState_append (st : Cursor) (xs ys : List TokenItem) :
    resolveState st (xs ++ ys) = resolveState (resolveState st xs) ys := by
  induction xs generalizing st with
  | nil => rfl
  | cons it rest ih => simp [resolveState, ih]

theorem resolveState_nonLast (st : Cursor) (items : List TokenItem)
    (h : ∀ it ∈ items,
      ∃ t cs ce bs be, it = TokenItem.WithPosition t cs ce bs be false) :
    resolveState st items = st := by
  induction items generalizing st with
  | nil => rfl
  | cons it rest ih =>
      obtain ⟨t, cs, ce, bs, be, rfl⟩ := h it (List.mem_cons_self ..)
      have hrest := fun x hx => h x (List.mem_cons_of_mem _ hx)
      simp [resolveState, resolveStep, ih _ hrest]

/-- Is the item a bare `Simple` slice? -/
def TokenItem.isSimple : TokenItem → Bool
  | .Simple _ => true
  | .WithPosition _ _ _ _ _ _ => false

theorem resolveGo_simple_tiling (items : List TokenItem) (st : Cursor)
    (h : ∀ it ∈ items, it.isSimple = true) :
    (∀ t ∈ resolveGo st items,
        t.char_end = t.char_start + t.lemma'.length ∧
        t.byte_end = t.byte_start + utf8Len t.lemma') ∧
    List.Chain' (fun a b => a.char_end = b.char_start ∧ a.byte_end = b.byte_start)
      (resolveGo st items) ∧
    (∀ t ∈ (resolveGo st items).head?,
        t.char_start = st.char_index ∧ t.byte_start = st.byte_index) := by
  induction items generalizing st with
  | nil => simp [resolveGo]
  | cons it rest ih =>
      obtain ⟨lem, rfl⟩ : ∃ lem, it = TokenItem.Simple lem := by
        cases hit : it with
        | Simple lem => exact ⟨lem, rfl⟩
        | WithPosition t cs ce bs be last =>
            have := h it (List.mem_cons_self ..)
            rw [hit] at this; simp [TokenItem.isSimple] at this
      have hrest := fun x hx => h x (List.mem_cons_of_mem _ hx)
      obtain ⟨ih1, ih2, ih3⟩ := ih (resolveStep st (TokenItem.Simple lem)).2 hrest
      refine ⟨?_, ?_, ?_⟩
      · intro t ht
        rcases List.mem_cons.mp ht with h1 | h1
        · subst h1; simp [resolveGo, resolveStep]
        · exact ih1 t h1
      · rw [resolveGo, List.chain'_cons']
        refine ⟨?_, ih2⟩
        intro y hy
        obtain ⟨hc, hb⟩ := ih3 y hy
        simp [resolveStep] at hc hb ⊢
        exact ⟨hc.symm, hb.symm⟩
      · intro t ht
        simp [resolveGo] at ht
        subst ht
        simp [resolveStep]

/-! ## Segmenter-local lemmas: losslessness and item shapes -/

theorem arabicSegmentStr_join (s : List Char) :
    joinItems (arabicSegmentStr s) = s := by
  rw [arabicSegmentStr]
  split <;> simp [joinItems, TokenItem.text]

theorem arabicSegmentStr_simple (s : List Char) :
    ∀ it ∈ arabicSegmentStr s, it.isSimple = true := by
  rw [arabicSegmentStr]
  split <;> simp [TokenItem.isSimple]

theorem camelGo_join (rest : List Char) :
    ∀ (accRev : List Char) (prev : Char),
      (camelGo accRev prev rest).flatten = accRev.reverse ++ rest := by
  induction rest with
  | nil => intro accRev prev; simp [camelGo]
  | cons c rest ih =>
      intro accRev prev
      rw [camelGo]
      split
      · simp [ih]
      · simp [ih]

theorem splitCamelCaseBounds_join (s : List Char) :
    (splitCamelCaseBounds s).flatten = s := by
  cases s with
  | nil => rfl
  | cons c rest => simp [splitCamelCaseBounds, camelGo_join]

theorem flatMap_ident (l : List (List Char)) :
    (l.flatMap fun a => a) = l.flatten := by
  induction l with
  | nil => rfl
  | cons a t ih => simp [List.flatMap_cons, ih]

theorem latinSegmentStr_join (s : List Char) :
    joinItems (latinSegmentStr s) = s := by
  have h := splitCamelCaseBounds_join s
  rw [latinSegmentStr, joinItems, List.flatMap_map]
  show ((splitCamelCaseBounds s).flatMap fun a => a) = s
  rw [flatMap_ident, h]

theorem latinSegmentStr_simple (s : List Char) :
    ∀ it ∈ latinSegmentStr s, it.isSimple = true := by
  rw [latinSegmentStr]
  intro it hit
  obtain ⟨g, _, rfl⟩ := List.mem_map.mp hit
  rfl

theorem bestStep_some_shape (s : List Char) (acc : Option (List Char))
    (p w : List Char) (h : bestStep s acc p = some w) :
    acc = some w ∨ (w = p ∧ p ≠ [] ∧ p.isPrefixOf s = true) := by
  unfold bestStep at h
  split at h
  · rename_i hc
    cases acc with
    | none => exact Or.inr ⟨(Option.some.inj h).symm, hc⟩
    | some v =>
        have h' : (if v.length < p.length then some p else some v) = some w := h
        split at h'
        · exact Or.inr ⟨(Option.some.inj h').symm, hc⟩
        · exact Or.inl (by rw [Option.some.inj h'])
  · exact Or.inl h

theorem bestStep_mono (s : List Char) (acc : Option (List Char))
    (p u : List Char) (h : acc = some u) :
    ∃ w, bestStep s acc p = some w ∧ u.length ≤ w.length := by
  subst h
  unfold bestStep
  split
  · by_cases hlt : u.length < p.length
    · exact ⟨p, by simp [hlt], Nat.le_of_lt hlt⟩
    · exact ⟨u, by simp [hlt], Nat.le_refl _⟩
  · exact ⟨u, rfl, Nat.le_refl _⟩

theorem bestStep_cand (s : List Char) (acc : Option (List Char))
    (p : List Char) (hp : p ≠ []) (hpre : p.isPrefixOf s = true) :
    ∃ w, bestStep s acc p = some w ∧ p.length ≤ w.length := by
  unfold bestStep
  rw [if_pos ⟨hp, hpre⟩]
  cases acc with
  | none => exact ⟨p, rfl, Nat.le_refl _⟩
  | some v =>
      by_cases hlt : v.length < p.length
      · exact ⟨p, by simp [hlt], Nat.le_refl _⟩
      · exact ⟨v, by simp [hlt], Nat.le_of_not_lt hlt⟩

theorem foldl_bestStep_mono (s : List Char) (l : List (List Char)) :
    ∀ (acc : Option (List Char)) (u : List Char), acc = some u →
      ∃ w, l.foldl (bestStep s) acc = some w ∧ u.length ≤ w.length := by
  induction l with
  | nil => intro acc u h; exact ⟨u, by simpa using h, Nat.le_refl _⟩
  | cons p l ih =>
      intro acc u h
      obtain ⟨w1, hw1, hle1⟩ := bestStep_mono s acc p u h
      obtain ⟨w2, hw2, hle2⟩ := ih (bestStep s acc p) w1 hw1
      exact ⟨w2, by simpa using hw2, Nat.le_trans hle1 hle2⟩

theorem foldl_bestStep_spec (s : List Char) (l : List (List Char)) :
    ∀ (acc : Option (List Char)),
      (∀ u, acc = some u → u ≠ [] ∧ u.isPrefixOf s = true) →
      ∀ w, l.foldl (bestStep s) acc = some w →
        (w ≠ [] ∧ w.isPrefixOf s = true) ∧
        (acc = some w ∨ w ∈ l) ∧
        (∀ u, acc = some u → u.length ≤ w.length) ∧
        (∀ v ∈ l, v ≠ [] → v.isPrefixOf s = true → v.length ≤ w.length) := by
  induction l with
  | nil =>
      intro acc hacc w hw
      simp at hw
      refine ⟨hacc w hw, Or.inl hw, ?_, by simp⟩
      intro u hu
      rw [hu] at hw
      cases hw
      exact Nat.le_refl _
  | cons p l ih =>
      intro acc hacc w hw
      rw [List.foldl_cons] at hw
      have hacc' : ∀ u, bestStep s acc p = some u →
          u ≠ [] ∧ u.isPrefixOf s = true := by
        intro u hu
        rcases bestStep_some_shape s acc p u hu with h1 | h1
        · exact hacc u h1
        · exact ⟨h1.1 ▸ h1.2.1, h1.1 ▸ h1.2.2⟩
      obtain ⟨hshape, hmem, hbound, hcand⟩ := ih (bestStep s acc p) hacc' w hw
      refine ⟨hshape, ?_, ?_, ?_⟩
      · rcases hmem with h1 | h1
        · rcases bestStep_some_shape s acc p w h1 with h2 | h2
          · exact Or.inl h2
          · exact Or.inr (h2.1 ▸ List.mem_cons_self ..)
        · exact Or.inr (List.mem_cons_of_mem _ h1)
      · intro u hu
        obtain ⟨w1, hw1, hle1⟩ := bestStep_mono s acc p u hu
        exact Nat.le_trans hle1 (hbound w1 hw1)
      · intro v hv hvne hvpre
        rcases List.mem_cons.mp hv with h1 | h1
        · subst h1
          obtain ⟨w1, hw1, hle1⟩ := bestStep_cand s acc v hvne hvpre
          exact Nat.le_trans hle1 (hbound w1 hw1)
        · exact hcand v h1 hvne hvpre

theorem bestDictEntry_some (dict : List (List Char)) (s : List Char)
    (w : List Char) (h : bestDictEntry dict s = some w) :
    w ∈ dict ∧ w ≠ [] ∧ w.isPrefixOf s = true ∧
      ∀ v ∈ dict, v ≠ [] → v.isPrefixOf s = true → v.length ≤ w.length := by
  obtain ⟨hshape, hmem, _, hcand⟩ :=
    foldl_bestStep_spec s dict none (by simp) w h
  rcases hmem with h1 | h1
  · cases h1
  · exact ⟨h1, hshape.1, hshape.2, hcand⟩

theorem bestDictEntry_none (dict : List (List Char)) (s : List Char)
    (h : bestDictEntry dict s = none) :
    ∀ v ∈ dict, v ≠ [] → ¬ (v.isPrefixOf s = true) := by
  intro v hv hvne hvpre
  obtain ⟨i1, i2, rfl⟩ := List.append_of_mem hv
  have : ∃ w, bestDictEntry (i1 ++ v :: i2) s = some w := by
    rw [bestDictEntry, List.foldl_append, List.foldl_cons]
    obtain ⟨w1, hw1, _⟩ := bestStep_cand s (i1.foldl (bestStep s) none) v hvne hvpre
    obtain ⟨w2, hw2, _⟩ := foldl_bestStep_mono s i2 _ w1 hw1
    exact ⟨w2, hw2⟩
  obtain ⟨w, hw⟩ := this
  rw [h] at hw
  cases hw

theorem bestDictEntry_some_le_length (dict : List (List Char))
    (s w : List Char) (h : bestDictEntry dict s = some w) :
    1 ≤ w.length ∧ w.length ≤ s.length := by
  obtain ⟨_, hne, hpre, _⟩ := bestDictEntry_some dict s w h
  obtain ⟨r, hr⟩ := List.isPrefixOf_iff_prefix.mp hpre
  constructor
  · cases w with
    | nil => exact absurd rfl hne
    | cons a t => simp
  · rw [← hr]; simp

theorem fstSegmentGo_nil (dict : List (List Char)) (fuel : Nat) :
    fstSegmentGo dict fuel [] = [] := by
  cases fuel <;> rfl

theorem fstSegmentGo_fuel (dict : List (List Char)) :
    ∀ (fuel fuel' : Nat) (t : List Char), t.length ≤ fuel →
      t.length ≤ fuel' → fstSegmentGo dict fuel t = fstSegmentGo dict fuel' t := by
  intro fuel
  induction fuel with
  | zero =>
      intro fuel' t ht _
      have : t = [] := List.eq_nil_of_length_eq_zero (Nat.le_zero.mp ht)
      subst this
      rw [fstSegmentGo_nil, fstSegmentGo_nil]
  | succ fuel ih =>
      intro fuel' t ht ht'
      cases t with
      | nil => rw [fstSegmentGo_nil, fstSegmentGo_nil]
      | cons c rest =>
          cases fuel' with
          | zero => simp at ht'
          | succ f' =>
              rw [fstSegmentGo, fstSegmentGo]
              cases hbd : bestDictEntry dict (c :: rest) with
              | some w =>
                  simp only []
                  obtain ⟨h1, _⟩ := bestDictEntry_some_le_length dict _ w hbd
                  have hlen : ((c :: rest).drop w.length).length ≤ fuel := by
                    simp [List.length_drop] at *
                    omega
                  have hlen' : ((c :: rest).drop w.length).length ≤ f' := by
                    simp [List.length_drop] at *
                    omega
                  rw [ih f' _ hlen hlen']
              | none =>
                  simp only []
                  have hlen : rest.length ≤ fuel := by simp at ht; omega
                  have hlen' : rest.length ≤ f' := by simp at ht'; omega
                  rw [ih f' rest hlen hlen']

theorem fstSegment_step_some (dict : List (List Char)) (c : Char)
    (rest : List Char) (w : List Char)
    (h : bestDictEntry dict (c :: rest) = some w) :
    fstSegment dict (c :: rest) =
      w :: fstSegment dict ((c :: rest).drop w.length) := by
  rw [fstSegment, show (c :: rest).length = rest.length + 1 from rfl,
    fstSegmentGo, h]
  simp only []
  congr 1
  obtain ⟨h1, _⟩ := bestDictEntry_some_le_length dict _ w h
  apply fstSegmentGo_fuel
  · simp [List.length_drop]; omega
  · exact Nat.le_refl _

theorem fstSegment_step_none (dict : List (List Char)) (c : Char)
    (rest : List Char) (h : bestDictEntry dict (c :: rest) = none) :
    fstSegment dict (c :: rest) = [c] :: fstSegment dict rest := by
  rw [fstSegment, show (c :: rest).length = rest.length + 1 from rfl,
    fstSegmentGo, h]
  rfl

theorem fstSegment_join_bounded (dict : List (List Char)) :
    ∀ (n : Nat) (s : List Char), s.length ≤ n →
      (fstSegment dict s).flatten = s := by
  intro n
  induction n with
  | zero =>
      intro s hs
      have : s = [] := List.eq_nil_of_length_eq_zero (Nat.le_zero.mp hs)
      subst this
      rfl
  | succ n ih =>
      intro s hs
      cases s with
      | nil => rfl
      | cons c rest =>
          cases hbd : bestDictEntry dict (c :: rest) with
          | some w =>
              rw [fstSegment_step_some dict c rest w hbd]
              obtain ⟨h1, h2⟩ := bestDictEntry_some_le_length dict _ w hbd
              obtain ⟨_, _, hpre, _⟩ := bestDictEntry_some dict _ w hbd
              have hlen : ((c :: rest).drop w.length).length ≤ n := by
                simp [List.length_drop] at *
                omega
              rw [List.flatten_cons, ih _ hlen]
              exact isPrefixOf_append_drop w (c :: rest) hpre
          | none =>
              rw [fstSegment_step_none dict c rest hbd]
              have hlen : rest.length ≤ n := by simp at hs; omega
              rw [List.flatten_cons, ih rest hlen]
              rfl

theorem fstSegment_join (dict : List (List Char)) (s : List Char) :
    (fstSegment dict s).flatten = s :=
  fstSegment_join_bounded dict s.length s (Nat.le_refl _)

theorem thaiSegmentStr_join (dict : List (List Char)) (s : List Char) :
    joinItems (thaiSegmentStr dict s) = s := by
  have h := fstSegment_join dict s
  rw [thaiSegmentStr, joinItems, List.flatMap_map]
  show ((fstSegment dict s).flatMap fun a => a) = s
  rw [flatMap_ident, h]

theorem thaiSegmentStr_simple (dict : List (List Char)) (s : List Char) :
    ∀ it ∈ thaiSegmentStr dict s, it.isSimple = true := by
  rw [thaiSegmentStr]
  intro it hit
  obtain ⟨g, _, rfl⟩ := List.mem_map.mp hit
  rfl

/-! ## Separator-automaton lemmas -/

/-- Well-formedness of a match list relative to a left cursor: matches are
in order, non-empty, non-overlapping and within the text. -/
def ValidFrom (len : Nat) : Nat → List (Nat × Nat) → Prop
  | _, [] => True
  | left, (ms, me) :: rest => left ≤ ms ∧ ms < me ∧ me ≤ len ∧ ValidFrom len me rest

theorem validFrom_mono (len a b : Nat) (M : List (Nat × Nat)) (hab : a ≤ b)
    (h : ValidFrom len b M) : ValidFrom len a M := by
  cases M with
  | nil => trivial
  | cons m rest =>
      obtain ⟨h1, h2, h3, h4⟩ := h
      exact ⟨Nat.le_trans hab h1, h2, h3, h4⟩

theorem bestPatLen_some (patterns : List (List Char)) (s : List Char)
    (n : Nat) (h : bestPatLen patterns s = some n) :
    1 ≤ n ∧ n ≤ s.length := by
  rw [bestPatLen] at h
  cases hbd : bestDictEntry patterns s with
  | none => rw [hbd] at h; cases h
  | some w =>
      rw [hbd] at h
      simp at h
      subst h
      exact bestDictEntry_some_le_length patterns s w hbd

theorem ahoMatchesGo_valid (patterns : List (List Char)) (s : List Char) :
    ∀ (fuel : Nat) (t : List Char) (pos : Nat), t = s.drop pos →
      t.length ≤ fuel →
      ValidFrom s.length pos (ahoMatchesGo patterns fuel t pos) := by
  intro fuel
  induction fuel with
  | zero => intro t pos _ _; trivial
  | succ fuel ih =>
      intro t pos hdrop hlen
      cases t with
      | nil => trivial
      | cons c rest =>
          have hposlen : pos < s.length := by
            have := congrArg List.length hdrop
            simp [List.length_drop] at this
            omega
          have htlen : (c :: rest).length = s.length - pos := by
            rw [hdrop, List.length_drop]
          rw [ahoMatchesGo]
          cases hbp : bestPatLen patterns (c :: rest) with
          | some n =>
              obtain ⟨hn1, hn2⟩ := bestPatLen_some patterns _ n hbp
              refine ⟨Nat.le_refl _, by omega, by omega, ?_⟩
              have harg : (c :: rest).drop n = s.drop (pos + n) := by
                rw [hdrop, List.drop_drop]
              have hlen2 : ((c :: rest).drop n).length ≤ fuel := by
                simp [List.length_drop] at *
                omega
              exact ih _ _ harg hlen2
          | none =>
              have harg : rest = s.drop (pos + 1) := by
                have h0 : rest = (c :: rest).drop 1 := rfl
                rw [h0, hdrop, List.drop_drop]
              have hlen2 : rest.length ≤ fuel := by
                simp at hlen
                omega
              exact validFrom_mono s.length pos (pos + 1) _ (by omega)
                (ih _ _ harg hlen2)

theorem ahoMatches_valid (patterns : List (List Char)) (s : List Char) :
    ValidFrom s.length 0 (ahoMatches patterns s) := by
  apply ahoMatchesGo_valid patterns s s.length s 0 (by simp) (Nat.le_refl _)

theorem ahoSegsGo_join (text : List Char) :
    ∀ (M : List (Nat × Nat)) (left : Nat),
      ValidFrom text.length left M →
      (ahoSegsGo text left M).flatMap (fun p => p.1) = text.drop left := by
  intro M
  induction M with
  | nil =>
      intro left _
      rw [ahoSegsGo]
      by_cases h : left < text.length
      · rw [if_pos h]
        simp [sliceOf]
      · rw [if_neg h]
        have : text.drop left = [] :=
          List.drop_eq_nil_of_le (by omega)
        rw [this]
        rfl
  | cons m rest ih =>
      intro left hv
      obtain ⟨m1, m2⟩ := m
      obtain ⟨h1, h2, h3, h4⟩ := hv
      rw [ahoSegsGo, List.flatMap_append, List.flatMap_append, ih m2 h4,
        if_pos h2]
      have hmatch : sliceOf text m1 m2 ++ text.drop m2 = text.drop m1 :=
        sliceOf_append_drop text m1 m2 (Nat.le_of_lt h2)
      by_cases hgap : left < m1
      · rw [if_pos hgap]
        simp only [List.flatMap_cons, List.flatMap_nil, List.append_nil,
          List.append_assoc]
        rw [hmatch]
        exact sliceOf_append_drop text left m1 h1
      · have : left = m1 := by omega
        subst this
        rw [if_neg hgap]
        simpa using hmatch

theorem ahoSegments_join (patterns : List (List Char)) (text : List Char) :
    (ahoSegments patterns text).flatMap (fun p => p.1) = text := by
  rw [ahoSegments, ahoSegsGo_join text _ 0 (ahoMatches_valid patterns text)]
  rfl

theorem ahoSegsGo_ne_nil (text : List Char) :
    ∀ (M : List (Nat × Nat)) (left : Nat),
      ValidFrom text.length left M →
      ∀ p ∈ ahoSegsGo text left M, p.1 ≠ [] := by
  intro M
  induction M with
  | nil =>
      intro left _ p hp
      rw [ahoSegsGo] at hp
      by_cases h : left < text.length
      · rw [if_pos h] at hp
        simp at hp
        rw [hp]
        exact sliceOf_ne_nil text left text.length h h
      · rw [if_neg h] at hp
        cases hp
  | cons m rest ih =>
      intro left hv p hp
      obtain ⟨m1, m2⟩ := m
      obtain ⟨h1, h2, h3, h4⟩ := hv
      have hm1len : m1 < text.length := by omega
      rw [ahoSegsGo] at hp
      rcases List.mem_append.mp hp with hp1 | hp1
      rcases List.mem_append.mp hp1 with hp2 | hp2
      · by_cases hgap : left < m1
        · rw [if_pos hgap] at hp2
          simp at hp2
          rw [hp2]
          exact sliceOf_ne_nil text left m1 hgap (by omega)
        · rw [if_neg hgap] at hp2
          cases hp2
      · rw [if_pos h2] at hp2
        simp at hp2
        rw [hp2]
        exact sliceOf_ne_nil text m1 m2 h2 hm1len
      · exact ih m2 h4 p hp1

/-! ## Composer lemmas -/

theorem flatMap_congr {α β : Type} (l : List α) (f g : α → List β)
    (h : ∀ x ∈ l, f x = g x) : l.flatMap f = l.flatMap g := by
  induction l with
  | nil => rfl
  | cons a t ih =>
      rw [List.flatMap_cons, List.flatMap_cons, h a (List.mem_cons_self ..),
        ih fun x hx => h x (List.mem_cons_of_mem _ hx)]

theorem joinItems_flatMap {α : Type} (l : List α) (f : α → List TokenItem) :
    joinItems (l.flatMap f) = l.flatMap (fun x => joinItems (f x)) := by
  rw [joinItems, List.flatMap_assoc]
  rfl

theorem composeRun_join (seg : List Char → List TokenItem)
    (patterns : List (List Char)) (text : List Char)
    (hseg : ∀ gap, joinItems (seg gap) = gap) :
    joinItems (composeRun seg patterns text) = text := by
  rw [composeRun, joinItems_flatMap]
  have h1 : (ahoSegments patterns text).flatMap
        (fun p => joinItems (match p.2 with
          | MatchType.Match => [TokenItem.Simple p.1]
          | MatchType.Interleave => seg p.1)) =
      (ahoSegments patterns text).flatMap (fun p => p.1) := by
    apply flatMap_congr
    intro p _
    cases p.2 with
    | Match => simp [joinItems, TokenItem.text]
    | Interleave => exact hseg p.1
  rw [h1, ahoSegments_join]

theorem composeRun_simple (seg : List Char → List TokenItem)
    (patterns : List (List Char)) (text : List Char)
    (hseg : ∀ gap, ∀ it ∈ seg gap, it.isSimple = true) :
    ∀ it ∈ composeRun seg patterns text, it.isSimple = true := by
  intro it hit
  rw [composeRun] at hit
  obtain ⟨p, _, hp2⟩ := List.mem_flatMap.mp hit
  revert hp2
  cases p.2 with
  | Match => intro hp2; simp at hp2; rw [hp2]; rfl
  | Interleave => intro hp2; exact hseg p.1 it hp2

/-! ## Script-run lemmas -/

theorem groupRuns_cons_nil (c : Char) (k : Script)
    (rest : List (Char × Script)) (h : groupRuns rest = []) :
    groupRuns ((c, k) :: rest) = [([c], k)] := by
  rw [groupRuns, h]

theorem groupRuns_cons_cons (c : Char) (k : Script)
    (rest : List (Char × Script)) (g0 : List Char × Script)
    (more : List (List Char × Script)) (h : groupRuns rest = g0 :: more) :
    groupRuns ((c, k) :: rest) =
      if k = g0.2 then ((c :: g0.1), k) :: more
      else ([c], k) :: g0 :: more := by
  rw [groupRuns, h]

theorem groupRuns_flatten (l : List (Char × Script)) :
    (groupRuns l).flatMap (fun g => g.1.map (fun c => (c, g.2))) = l := by
  induction l with
  | nil => rfl
  | cons p rest ih =>
      obtain ⟨c, k⟩ := p
      cases hg : groupRuns rest with
      | nil =>
          rw [groupRuns_cons_nil c k rest hg]
          rw [hg] at ih
          simp at ih
          simp [ih]
      | cons g0 more =>
          rw [groupRuns_cons_cons c k rest g0 more hg]
          rw [hg] at ih
          by_cases hk : k = g0.2
          · rw [if_pos hk]
            subst hk
            rw [List.flatMap_cons] at ih ⊢
            rw [List.map_cons, List.cons_append]
            rw [← ih]
          · rw [if_neg hk]
            rw [List.flatMap_cons] at ih ⊢
            rw [List.flatMap_cons]
            simp only [List.map_cons, List.map_nil, List.cons_append,
              List.nil_append]
            rw [← ih]

theorem groupRuns_ne_nil (l : List (Char × Script)) :
    ∀ g ∈ groupRuns l, g.1 ≠ [] := by
  induction l with
  | nil => intro g hg; cases hg
  | cons p rest ih =>
      obtain ⟨c, k⟩ := p
      intro g hg
      cases hgr : groupRuns rest with
      | nil =>
          rw [groupRuns_cons_nil c k rest hgr] at hg
          simp at hg
          rw [hg]
          simp
      | cons g0 more =>
          rw [groupRuns_cons_cons c k rest g0 more hgr] at hg
          by_cases hk : k = g0.2
          · rw [if_pos hk] at hg
            rcases List.mem_cons.mp hg with h1 | h1
            · rw [h1]; simp
            · exact ih g (hgr ▸ List.mem_cons_of_mem _ h1)
          · rw [if_neg hk] at hg
            rcases List.mem_cons.mp hg with h1 | h1
            · rw [h1]; simp
            · exact ih g (hgr ▸ h1)

theorem groupRuns_chain (l : List (Char × Script)) :
    List.Chain' (fun g1 g2 => g1.2 ≠ g2.2) (groupRuns l) := by
  induction l with
  | nil => simp [groupRuns]
  | cons p rest ih =>
      obtain ⟨c, k⟩ := p
      cases hgr : groupRuns rest with
      | nil => rw [groupRuns_cons_nil c k rest hgr]; simp
      | cons g0 more =>
          rw [groupRuns_cons_cons c k rest g0 more hgr]
          rw [hgr] at ih
          by_cases hk : k = g0.2
          · rw [if_pos hk]
            rw [List.chain'_cons'] at ih ⊢
            refine ⟨fun y hy => ?_, ih.2⟩
            have h2 := ih.1 y hy
            simpa [hk] using h2
          · rw [if_neg hk]
            rw [List.chain'_cons']
            refine ⟨?_, ih⟩
            intro y hy
            simp at hy
            rw [← hy]
            exact hk

theorem runKeysGo_fst (classify : Char → Script) :
    ∀ (s : List Char) (cur : Script),
      (runKeysGo classify cur s).map Prod.fst = s := by
  intro s
  induction s with
  | nil => intro cur; rfl
  | cons c rest ih => intro cur; simp [runKeysGo, ih]

theorem runKeysGo_key (classify : Char → Script) :
    ∀ (s : List Char) (cur : Script),
      ∀ p ∈ runKeysGo classify cur s,
        classify p.1 = Script.Other ∨ p.2 = classify p.1 := by
  intro s
  induction s with
  | nil => intro cur p hp; cases hp
  | cons c rest ih =>
      intro cur p hp
      rw [runKeysGo] at hp
      rcases List.mem_cons.mp hp with h1 | h1
      · rw [h1]
        by_cases hsc : classify c = Script.Other
        · exact Or.inl hsc
        · simp [hsc]
      · exact ih _ p h1

theorem runKeysGo_head (classify : Char → Script) (cur : Script)
    (c : Char) (rest : List Char) :
    (runKeysGo classify cur (c :: rest)).head? =
      some (c, if classify c = Script.Other then cur else classify c) := rfl

theorem runKeysGo_boundary (classify : Char → Script) :
    ∀ (s : List Char) (cur : Script),
      List.Chain' (fun p q => q.2 ≠ p.2 ↔
        (classify q.1 ≠ Script.Other ∧ classify q.1 ≠ p.2))
        (runKeysGo classify cur s) := by
  intro s
  induction s with
  | nil => intro cur; simp [runKeysGo]
  | cons c rest ih =>
      intro cur
      rw [runKeysGo, List.chain'_cons']
      constructor
      · intro q hq
        cases rest with
        | nil => cases hq
        | cons c2 rest2 =>
            rw [runKeysGo_head] at hq
            simp at hq
            subst hq
            by_cases hsc : classify c2 = Script.Other
            · simp [hsc]
            · simp [hsc]
      · exact ih _

/-! ## Dispatch lemmas -/

theorem lookupKey_mem {α : Type} (registry : List ((Script × Language) × α))
    (key : Script × Language) (g : α) (h : lookupKey registry key = some g) :
    ∃ e ∈ registry, e.2 = g := by
  rw [lookupKey] at h
  cases hf : registry.find? (fun e => e.1 = key) with
  | none => rw [hf] at h; cases h
  | some e =>
      rw [hf] at h
      simp at h
      exact ⟨e, List.mem_of_find?_eq_some hf, h⟩

theorem dispatch_mem {α : Type} (registry : List ((Script × Language) × α))
    (dflt : α) (sc : Script) (detectLang : Unit → Language) :
    (dispatch registry dflt sc detectLang).1 = dflt ∨
      ∃ e ∈ registry, e.2 = (dispatch registry dflt sc detectLang).1 := by
  rw [dispatch]
  cases hf : registry.filter (fun e => e.1.1 = sc) with
  | nil => exact Or.inl rfl
  | cons e1 tail =>
      cases tail with
      | nil =>
          refine Or.inr ⟨e1, ?_, rfl⟩
          have : e1 ∈ registry.filter (fun e => e.1.1 = sc) := by
            rw [hf]; exact List.mem_cons_self ..
          exact List.mem_of_mem_filter this
      | cons e2 tail2 =>
          simp only []
          cases hl1 : lookupKey registry (sc, detectLang ()) with
          | some g =>
              obtain ⟨e, he, he2⟩ := lookupKey_mem registry _ g hl1
              exact Or.inr ⟨e, he, by simp [Option.orElse, he2]⟩
          | none =>
              cases hl2 : lookupKey registry (sc, Language.Other) with
              | some g =>
                  obtain ⟨e, he, he2⟩ := lookupKey_mem registry _ g hl2
                  exact Or.inr ⟨e, he, by simp [Option.orElse, he2]⟩
              | none => exact Or.inl (by simp [Option.orElse])

/-! ## Pipeline lemmas -/

theorem scriptRuns_flatten (classify : Char → Script) (s : List Char) :
    (scriptRuns classify s).flatMap (fun r => r.1) = s := by
  have h1 := groupRuns_flatten (runKeysGo classify Script.Other s)
  have h2 := congrArg (List.map Prod.fst) h1
  rw [List.map_flatMap] at h2
  simp only [List.map_map] at h2
  have h3 : ∀ g ∈ groupRuns (runKeysGo classify Script.Other s),
      List.map (Prod.fst ∘ fun c => (c, g.2)) g.1 = g.1 := by
    intro g _
    rw [show (Prod.fst ∘ fun c : Char => (c, g.2)) = fun c : Char => c from rfl]
    exact List.map_id' g.1
  rw [flatMap_congr _ _ (fun g => g.1) h3] at h2
  rw [runKeysGo_fst] at h2
  exact h2

theorem segmentStrPipeline_join
    (classify : Char → Script) (detectScript : List Char → Script)
    (detectLang : List Char → Language)
    (registry : List ((Script × Language) × (List Char → List TokenItem)))
    (dflt : List Char → List TokenItem) (patterns : List (List Char))
    (s : List Char)
    (hd : ∀ t, joinItems (dflt t) = t)
    (hr : ∀ e ∈ registry, ∀ t, joinItems (e.2 t) = t) :
    joinItems (segmentStrPipeline classify detectScript detectLang registry
      dflt patterns s) = s := by
  rw [segmentStrPipeline, joinItems_flatMap]
  have h : ∀ run ∈ scriptRuns classify s,
      joinItems (composeRun
        (dispatch registry dflt (detectScript run.1)
          (fun _ => detectLang run.1)).1 patterns run.1) = run.1 := by
    intro run _
    apply composeRun_join
    intro gap
    rcases dispatch_mem registry dflt (detectScript run.1)
        (fun _ => detectLang run.1) with h1 | ⟨e, he, he2⟩
    · rw [h1]; exact hd gap
    · rw [← he2]; exact hr e he gap
  rw [flatMap_congr _ _ (fun r => r.1) h]
  exact scriptRuns_flatten classify s

theorem segmentStrPipeline_simple
    (classify : Char → Script) (detectScript : List Char → Script)
    (detectLang : List Char → Language)
    (registry : List ((Script × Language) × (List Char → List TokenItem)))
    (dflt : List Char → List TokenItem) (patterns : List (List Char))
    (s : List Char)
    (hd : ∀ t, ∀ it ∈ dflt t, it.isSimple = true)
    (hr : ∀ e ∈ registry, ∀ t, ∀ it ∈ e.2 t, it.isSimple = true) :
    ∀ it ∈ segmentStrPipeline classify detectScript detectLang registry
      dflt patterns s, it.isSimple = true := by
  intro it hit
  rw [segmentStrPipeline] at hit
  obtain ⟨run, _, hit2⟩ := List.mem_flatMap.mp hit
  revert hit2
  apply composeRun_simple
  intro gap it2 hit2
  rcases dispatch_mem registry dflt (detectScript run.1)
      (fun _ => detectLang run.1) with h1 | ⟨e, he, he2⟩
  · rw [h1] at hit2; exact hd gap it2 hit2
  · rw [← he2] at hit2; exact hr e he gap it2 hit2

/-- Demo registry containing only tiling, `Simple`-emitting segmenters
(the Latin and Arabic entries of `SEGMENTERS`). -/
def registrySimpleDemo :
    List ((Script × Language) × (List Char → List TokenItem)) :=
  [((Script.Latin, Language.Other), latinSegmentStr),
   ((Script.Arabic, Language.Ara), arabicSegmentStr)]

/-! ## Claims -/

/-- C1 (corrected, counterexample): as stated, losslessness fails on the
code: the CJK segmenter reports multiple overlapping candidate sub-spans
for one region (spec §4.4; pinned by the repository's chinese.rs test
data), so the concatenated lemmas of `segment("机器人")` duplicate the
region and differ from the input. -/
theorem c1_losslessness_cex :
    joinLemmas (segmentPipeline classifyDemo detectScriptDemo detectLangDemo
      registryDemo latinSegmentStr patternsDemo ("机器人".data)) ≠
      "机器人".data := by
  decide

/-- C1 (amended): for every input string, provided every segmenter in the
registry, and the default segmenter, is lossless (the concatenation of the
sub-spans it yields for a gap equals that gap — true of every `Simple`
tiling segmenter, violated by the overlapping-candidate CJK segmenter),
concatenating the lemmas of all tokens produced by segment, equivalently
all text slices produced by segment_str, yields exactly the input. -/
theorem c1_losslessness_amended
    (classify : Char → Script) (detectScript : List Char → Script)
    (detectLang : List Char → Language)
    (registry : List ((Script × Language) × (List Char → List TokenItem)))
    (dflt : List Char → List TokenItem) (patterns : List (List Char))
    (s : List Char)
    (hd : ∀ t, joinItems (dflt t) = t)
    (hr : ∀ e ∈ registry, ∀ t, joinItems (e.2 t) = t) :
    joinLemmas (segmentPipeline classify detectScript detectLang registry
        dflt patterns s) = s ∧
    joinItems (segmentStrPipeline classify detectScript detectLang registry
        dflt patterns s) = s := by
  have h2 := segmentStrPipeline_join classify detectScript detectLang
    registry dflt patterns s hd hr
  constructor
  · rw [segmentPipeline, resolve, resolveGo_lemma_join]
    exact h2
  · exact h2

/-- C1 witness: the amended losslessness theorem applied to the concrete
registry of tiling segmenters and the input of the spec's interleaving
example. -/
theorem c1_losslessness_amended_witness :
    joinLemmas (segmentPipeline classifyDemo detectScriptDemo detectLangDemo
        registrySimpleDemo latinSegmentStr patternsDemo ("foo, bar".data)) =
      "foo, bar".data ∧
    joinItems (segmentStrPipeline classifyDemo detectScriptDemo
        detectLangDemo registrySimpleDemo latinSegmentStr patternsDemo
        ("foo, bar".data)) = "foo, bar".data := by
  apply c1_losslessness_amended
  · exact latinSegmentStr_join
  · intro e he t
    rw [registrySimpleDemo] at he
    rcases List.mem_cons.mp he with rfl | he2
    · exact latinSegmentStr_join t
    · rcases List.mem_cons.mp he2 with rfl | he3
      · exact arabicSegmentStr_join t
      · cases he3

/-- C2 (corrected, counterexample): as stated, offset monotonicity fails
on the code: the two overlapping candidate tokens produced for `"机器人"`
have byte ranges `[0, 6)` and `[0, 9)`, so the second token's byte_start
is smaller than the first token's byte_end. -/
theorem c2_offsets_cex :
    ¬ List.Chain' (fun a b => a.byte_end ≤ b.byte_start)
      (segmentPipeline classifyDemo detectScriptDemo detectLangDemo
        registryDemo latinSegmentStr patternsDemo ("机器人".data)) := by
  have h : segmentPipeline classifyDemo detectScriptDemo detectLangDemo
      registryDemo latinSegmentStr patternsDemo ("机器人".data) =
      [⟨"机器".data, 0, 2, 0, 6⟩, ⟨"机器人".data, 0, 3, 0, 9⟩] := by
    decide
  rw [h, List.chain'_pair]
  decide

/-- C2 (amended): for every input string, provided every segmenter in the
registry, and the default segmenter, yields only `Simple` sub-spans (the
position-carrying CJK candidates are excluded — they are exactly the
counterexample), consecutive tokens of segment have non-decreasing,
non-overlapping byte and char ranges, each token's byte_end − byte_start
is the UTF-8 length of its lemma, and char_end − char_start is its
code-point count. -/
theorem c2_offsets_amended
    (classify : Char → Script) (detectScript : List Char → Script)
    (detectLang : List Char → Language)
    (registry : List ((Script × Language) × (List Char → List TokenItem)))
    (dflt : List Char → List TokenItem) (patterns : List (List Char))
    (s : List Char)
    (hd : ∀ t, ∀ it ∈ dflt t, it.isSimple = true)
    (hr : ∀ e ∈ registry, ∀ t, ∀ it ∈ e.2 t, it.isSimple = true) :
    List.Chain' (fun a b => a.byte_end ≤ b.byte_start ∧
        a.char_end ≤ b.char_start)
      (segmentPipeline classify detectScript detectLang registry dflt
        patterns s) ∧
    ∀ t ∈ segmentPipeline classify detectScript detectLang registry dflt
        patterns s,
      t.byte_end = t.byte_start + utf8Len t.lemma' ∧
      t.char_end = t.char_start + t.lemma'.length := by
  have hs := segmentStrPipeline_simple classify detectScript detectLang
    registry dflt patterns s hd hr
  obtain ⟨h1, h2, _⟩ := resolveGo_simple_tiling
    (segmentStrPipeline classify detectScript detectLang registry dflt
      patterns s) ⟨0, 0⟩ hs
  constructor
  · apply List.Chain'.imp _ h2
    intro a b hab
    exact ⟨Nat.le_of_eq hab.2, Nat.le_of_eq hab.1⟩
  · intro t ht
    obtain ⟨hc, hb⟩ := h1 t ht
    exact ⟨hb, hc⟩

/-- C2 witness: the amended offset theorem applied to the concrete
registry of `Simple`-emitting segmenters on `"foo, bar"`. -/
theorem c2_offsets_amended_witness :
    List.Chain' (fun a b => a.byte_end ≤ b.byte_start ∧
        a.char_end ≤ b.char_start)
      (segmentPipeline classifyDemo detectScriptDemo detectLangDemo
        registrySimpleDemo latinSegmentStr patternsDemo ("foo, bar".data)) ∧
    ∀ t ∈ segmentPipeline classifyDemo detectScriptDemo detectLangDemo
        registrySimpleDemo latinSegmentStr patternsDemo ("foo, bar".data),
      t.byte_end = t.byte_start + utf8Len t.lemma' ∧
      t.char_end = t.char_start + t.lemma'.length := by
  apply c2_offsets_amended
  · exact latinSegmentStr_simple
  · intro e he t
    rw [registrySimpleDemo] at he
    rcases List.mem_cons.mp he with rfl | he2
    · exact latinSegmentStr_simple t
    · rcases List.mem_cons.mp he2 with rfl | he3
      · exact arabicSegmentStr_simple t
      · cases he3

/-- C3: the position resolver maintains one char cursor and one byte
cursor, seeded at 0 for the whole input and threaded through the stream
without reset; a Simple sub-span's token starts at the cursor and ends at
cursor + its length (chars resp. bytes) and the cursor advances by that
length; a WithPosition sub-span's token offsets are cursor + its own
relative offsets, the cursor is unchanged for every sub-span not flagged
last and advances, by the flagged sub-span's own end offsets, exactly once
per batch whose final sub-span alone carries the flag. -/
theorem c3_position_resolver :
    (∀ items : List TokenItem, resolve items = resolveGo ⟨0, 0⟩ items) ∧
    (∀ (st : Cursor) (lem : List Char),
      resolveStep st (TokenItem.Simple lem) =
        (⟨lem, st.char_index, st.char_index + lem.length,
          st.byte_index, st.byte_index + utf8Len lem⟩,
         ⟨st.char_index + lem.length, st.byte_index + utf8Len lem⟩)) ∧
    (∀ (st : Cursor) (text : List Char) (cs ce bs be : Nat) (last : Bool),
      resolveStep st (TokenItem.WithPosition text cs ce bs be last) =
        (⟨text, st.char_index + cs, st.char_index + ce,
          st.byte_index + bs, st.byte_index + be⟩,
         if last then ⟨st.char_index + ce, st.byte_index + be⟩ else st)) ∧
    (∀ (st : Cursor) (xs ys : List TokenItem),
      resolveGo st (xs ++ ys) =
        resolveGo st xs ++ resolveGo (resolveState st xs) ys) ∧
    (∀ (st : Cursor) (items : List TokenItem),
      (∀ it ∈ items, ∃ t cs ce bs be,
        it = TokenItem.WithPosition t cs ce bs be false) →
      resolveState st items = st) ∧
    (∀ (st : Cursor) (pre : List TokenItem) (t : List Char)
        (cs ce bs be : Nat),
      (∀ it ∈ pre, ∃ t2 cs2 ce2 bs2 be2,
        it = TokenItem.WithPosition t2 cs2 ce2 bs2 be2 false) →
      resolveState st
          (pre ++ [TokenItem.WithPosition t cs ce bs be true]) =
        ⟨st.char_index + ce, st.byte_index + be⟩) := by
  refine ⟨fun items => rfl, fun st lem => rfl, fun st text cs ce bs be last => rfl,
    resolveGo_append, resolveState_nonLast, ?_⟩
  intro st pre t cs ce bs be hpre
  rw [resolveState_append, resolveState_nonLast st pre hpre]
  rfl

/-- C3 witness: the resolver theorem applied at a concrete cursor and a
concrete two-candidate batch. -/
theorem c3_position_resolver_witness :
    resolveState ⟨5, 7⟩
        [TokenItem.WithPosition ("ab".data) 0 2 0 2 false] = ⟨5, 7⟩ ∧
    resolveState ⟨5, 7⟩
        [TokenItem.WithPosition ("ab".data) 0 2 0 2 false,
         TokenItem.WithPosition ("abc".data) 0 3 0 3 true] =
      ⟨5 + 3, 7 + 3⟩ := by
  constructor
  · apply c3_position_resolver.2.2.2.2.1
    intro it hit
    simp at hit
    exact ⟨_, _, _, _, _, hit⟩
  · apply c3_position_resolver.2.2.2.2.2 ⟨5, 7⟩
      [TokenItem.WithPosition ("ab".data) 0 2 0 2 false] ("abc".data) 0 3 0 3
    intro it hit
    simp at hit
    exact ⟨_, _, _, _, _, hit⟩

/-- C4: the dispatch function returns the global default segmenter and
skips language detection when no registry key has the detected script;
returns the unique match and skips language detection when exactly one key
has it; and otherwise invokes the detector and falls back through
(script, detected language), (script, Other), default.  The boolean
component of `dispatch` records whether the language detector was
invoked. -/
theorem c4_dispatch {α : Type} (registry : List ((Script × Language) × α))
    (dflt : α) (sc : Script) (detectLang : Unit → Language) :
    (registry.filter (fun e => e.1.1 = sc) = [] →
      dispatch registry dflt sc detectLang = (dflt, false)) ∧
    (∀ e, registry.filter (fun e => e.1.1 = sc) = [e] →
      dispatch registry dflt sc detectLang = (e.2, false)) ∧
    (∀ e1 e2 tail, registry.filter (fun e => e.1.1 = sc) = e1 :: e2 :: tail →
      (dispatch registry dflt sc detectLang).2 = true ∧
      (∀ g, lookupKey registry (sc, detectLang ()) = some g →
        (dispatch registry dflt sc detectLang).1 = g) ∧
      (lookupKey registry (sc, detectLang ()) = none →
        ∀ g, lookupKey registry (sc, Language.Other) = some g →
          (dispatch registry dflt sc detectLang).1 = g) ∧
      (lookupKey registry (sc, detectLang ()) = none →
        lookupKey registry (sc, Language.Other) = none →
          (dispatch registry dflt sc detectLang).1 = dflt)) := by
  refine ⟨?_, ?_, ?_⟩
  · intro h
    rw [dispatch, h]
  · intro e h
    rw [dispatch, h]
  · intro e1 e2 tail h
    have hd : dispatch registry dflt sc detectLang =
        (((lookupKey registry (sc, detectLang ())).orElse
            (fun _ => lookupKey registry (sc, Language.Other))).getD dflt,
          true) := by
      rw [dispatch, h]
    refine ⟨by rw [hd], ?_, ?_, ?_⟩
    · intro g hg
      rw [hd]
      simp [hg, Option.orElse]
    · intro hn g hg
      rw [hd]
      simp [hn, hg, Option.orElse]
    · intro hn1 hn2
      rw [hd]
      simp [hn1, hn2, Option.orElse]

/-- Concrete registry used to exercise the dispatch theorem: one Latin
entry and two Cj entries, as in `SEGMENTERS` with the chinese and japanese
features enabled. -/
def registryNatDemo : List ((Script × Language) × Nat) :=
  [((Script.Latin, Language.Other), 1),
   ((Script.Cj, Language.Cmn), 2),
   ((Script.Cj, Language.Jpn), 3)]

/-- C4 witness: the dispatch theorem applied to a concrete registry in all
three regimes (no match, unique match, several matches). -/
theorem c4_dispatch_witness :
    dispatch registryNatDemo 0 Script.Arabic (fun _ => Language.Other) =
      (0, false) ∧
    dispatch registryNatDemo 0 Script.Latin (fun _ => Language.Other) =
      (1, false) ∧
    (dispatch registryNatDemo 0 Script.Cj (fun _ => Language.Cmn)).2 =
      true ∧
    (dispatch registryNatDemo 0 Script.Cj (fun _ => Language.Cmn)).1 = 2 := by
  refine ⟨?_, ?_, ?_, ?_⟩
  · exact (c4_dispatch registryNatDemo 0 Script.Arabic
      (fun _ => Language.Other)).1 (by decide)
  · exact (c4_dispatch registryNatDemo 0 Script.Latin
      (fun _ => Language.Other)).2.1 ((Script.Latin, Language.Other), 1)
      (by decide)
  · exact ((c4_dispatch registryNatDemo 0 Script.Cj
      (fun _ => Language.Cmn)).2.2 ((Script.Cj, Language.Cmn), 2)
      ((Script.Cj, Language.Jpn), 3) [] (by decide)).1
  · exact ((c4_dispatch registryNatDemo 0 Script.Cj
      (fun _ => Language.Cmn)).2.2 ((Script.Cj, Language.Cmn), 2)
      ((Script.Cj, Language.Jpn), 3) [] (by decide)).2.1 2 (by decide)

/-- C5: within one script run the composer feeds every non-empty gap to
the segmenter in original order, emits every automaton match verbatim as
an atomic `Simple` sub-span never passed to the segmenter, and discards
empty gaps; in particular for `"foo, bar"` with separators `,` and a
space, the stream is the segmenter output for `"foo"`, then `","`, then
`" "`, then the segmenter output for `"bar"`, whatever the segmenter. -/
theorem c5_interleaving :
    (∀ seg : List Char → List TokenItem,
      composeRun seg patternsDemo ("foo, bar".data) =
        seg ("foo".data) ++
          [TokenItem.Simple [','], TokenItem.Simple [' ']] ++
          seg ("bar".data)) ∧
    (ahoSegments patternsDemo ("foo, bar".data) =
      [("foo".data, MatchType.Interleave), ([','], MatchType.Match),
       ([' '], MatchType.Match), ("bar".data, MatchType.Interleave)]) ∧
    (∀ (seg : List Char → List TokenItem) (patterns : List (List Char))
        (text : List Char) (p : List Char × MatchType),
      p ∈ ahoSegments patterns text → p.2 = MatchType.Match →
      TokenItem.Simple p.1 ∈ composeRun seg patterns text) ∧
    (∀ (patterns : List (List Char)) (text : List Char)
        (p : List Char × MatchType),
      p ∈ ahoSegments patterns text → p.1 ≠ []) := by
  have hsegs : ahoSegments patternsDemo ("foo, bar".data) =
      [("foo".data, MatchType.Interleave), ([','], MatchType.Match),
       ([' '], MatchType.Match), ("bar".data, MatchType.Interleave)] := by
    decide
  refine ⟨?_, hsegs, ?_, ?_⟩
  · intro seg
    rw [composeRun, hsegs]
    simp [List.flatMap_cons, List.flatMap_nil]
  · intro seg patterns text p hp hmt
    rw [composeRun]
    apply List.mem_flatMap.mpr
    refine ⟨p, hp, ?_⟩
    rw [hmt]
    simp
  · intro patterns text p hp
    exact ahoSegsGo_ne_nil text (ahoMatches patterns text) 0
      (ahoMatches_valid patterns text) p hp

/-- C5 witness: the interleaving theorem applied at the concrete run,
discharging the match-membership hypotheses. -/
theorem c5_interleaving_witness :
    composeRun arabicSegmentStr patternsDemo ("foo, bar".data) =
      arabicSegmentStr ("foo".data) ++
        [TokenItem.Simple [','], TokenItem.Simple [' ']] ++
        arabicSegmentStr ("bar".data) ∧
    TokenItem.Simple [','] ∈
      composeRun arabicSegmentStr patternsDemo ("foo, bar".data) ∧
    ("foo".data ≠ ([] : List Char)) := by
  refine ⟨c5_interleaving.1 arabicSegmentStr, ?_, ?_⟩
  · exact c5_interleaving.2.2.1 arabicSegmentStr patternsDemo
      ("foo, bar".data) ([','], MatchType.Match) (by decide) rfl
  · exact c5_interleaving.2.2.2 patternsDemo ("foo, bar".data)
      ("foo".data, MatchType.Interleave) (by decide)

/-- C6: the script-run splitter partitions the input into non-empty runs
covering it exactly once in order; adjacent runs have different scripts
(maximality); every character inside a run is classified either `Other`
(attaching to the open run) or as the run's script; and along the keyed
character stream a new key — hence a new run — starts exactly at a
character whose classified script is neither `Other` nor the current
key. -/
theorem c6_script_runs (classify : Char → Script) (s : List Char) :
    ((scriptRuns classify s).flatMap (fun r => r.1) = s) ∧
    (∀ r ∈ scriptRuns classify s, r.1 ≠ []) ∧
    List.Chain' (fun r1 r2 => r1.2 ≠ r2.2) (scriptRuns classify s) ∧
    (∀ r ∈ scriptRuns classify s, ∀ c ∈ r.1,
      classify c = Script.Other ∨ classify c = r.2) ∧
    List.Chain' (fun p q => q.2 ≠ p.2 ↔
        (classify q.1 ≠ Script.Other ∧ classify q.1 ≠ p.2))
      (runKeysGo classify Script.Other s) := by
  refine ⟨scriptRuns_flatten classify s,
    groupRuns_ne_nil (runKeysGo classify Script.Other s),
    groupRuns_chain (runKeysGo classify Script.Other s), ?_,
    runKeysGo_boundary classify s Script.Other⟩
  intro r hr c hc
  have hmem : (c, r.2) ∈ runKeysGo classify Script.Other s := by
    rw [← groupRuns_flatten (runKeysGo classify Script.Other s)]
    exact List.mem_flatMap.mpr ⟨r, hr, List.mem_map.mpr ⟨c, hc, rfl⟩⟩
  rcases runKeysGo_key classify s Script.Other (c, r.2) hmem with h1 | h1
  · exact Or.inl h1
  · exact Or.inr h1.symm

/-- C6 witness: the script-run theorem applied to the concrete classifier
and the spec's example input, discharging the run-membership
hypotheses. -/
theorem c6_script_runs_witness :
    ("foo, bar".data, Script.Latin) ∈
      scriptRuns classifyDemo ("foo, bar".data) ∧
    ("foo, bar".data, Script.Latin).1 ≠ [] ∧
    (classifyDemo ',' = Script.Other ∨ classifyDemo ',' = Script.Latin) := by
  refine ⟨by decide, ?_, ?_⟩
  · exact (c6_script_runs classifyDemo ("foo, bar".data)).2.1
      ("foo, bar".data, Script.Latin) (by decide)
  · exact (c6_script_runs classifyDemo ("foo, bar".data)).2.2.2.1
      ("foo, bar".data, Script.Latin) (by decide) ',' (by decide)

/-- Byte length of an article-prefixed span always exceeds 2: every
article variant is two 2-byte characters, 4 bytes in total. -/
theorem startsWithArticle_utf8Len (s : List Char)
    (h : startsWithArticle s = true) : 2 < utf8Len s := by
  rw [startsWithArticle] at h
  obtain ⟨p, hp, hpre⟩ := List.any_eq_true.mp h
  obtain ⟨r, hr⟩ := List.isPrefixOf_iff_prefix.mp hpre
  have h4 : utf8Len p = 4 := by
    fin_cases hp <;> decide
  rw [← hr, utf8Len_append, h4]
  omega

/-- C7 (corrected, counterexample): the claim's guard — "the span's length
exceeds 2 characters" — is false for the 2-character span `"ال"`, so the
claim requires the span to be returned unchanged; the code instead splits
it (its guard compares the byte length, `len() > 2`, and `"ال"` is 4
bytes). -/
theorem c7_arabic_cex :
    ¬ (2 < ("ال".data).length) ∧
      arabicSegmentStr ("ال".data) ≠ [TokenItem.Simple ("ال".data)] := by
  decide

/-- C7 (amended): the guard compares the span's byte length (`len() > 2`),
not its character count, and a span starting with a 4-byte article always
passes it; hence: a span starting with one of the five articles segments
into its first 4 bytes (2 characters) and the remainder, any other span is
returned unchanged; in particular `"الشجرة"` gives `["ال", "شجرة"]` and
`"بانيا"` is unchanged. -/
theorem c7_arabic_amended (s : List Char) :
    (startsWithArticle s = true →
      arabicSegmentStr s =
        [TokenItem.Simple (s.take 2), TokenItem.Simple (s.drop 2)]) ∧
    (startsWithArticle s = false →
      arabicSegmentStr s = [TokenItem.Simple s]) ∧
    arabicSegmentStr ("الشجرة".data) =
      [TokenItem.Simple ("ال".data), TokenItem.Simple ("شجرة".data)] ∧
    arabicSegmentStr ("بانيا".data) = [TokenItem.Simple ("بانيا".data)] := by
  refine ⟨?_, ?_, by decide, by decide⟩
  · intro h
    rw [arabicSegmentStr, if_pos ⟨startsWithArticle_utf8Len s h, h⟩]
  · intro h
    rw [arabicSegmentStr, if_neg]
    rintro ⟨_, h2⟩
    rw [h] at h2
    cases h2

/-- C7 witness: the amended Arabic rule applied to `"الشجرة"`,
discharging the article-prefix hypothesis. -/
theorem c7_arabic_amended_witness :
    arabicSegmentStr ("الشجرة".data) =
      [TokenItem.Simple (("الشجرة".data).take 2),
       TokenItem.Simple (("الشجرة".data).drop 2)] :=
  (c7_arabic_amended ("الشجرة".data)).1 (by decide)

/-- C8: the dictionary longest-match segmenter scans left to right; on an
empty span it stops; at a position where some dictionary entry starts it
emits the longest such entry and advances past it; where none starts it
emits the single character and advances by one; the query really returns
the longest matching entry (and `none` only when no non-empty entry
matches); and on the toy dictionary ab, abc, c the input `"abcd"` yields
`["abc", "d"]`. -/
theorem c8_fst_longest_match (dict : List (List Char)) (s : List Char) :
    (fstSegment dict [] = []) ∧
    (∀ (c : Char) (rest w : List Char),
      bestDictEntry dict (c :: rest) = some w →
      fstSegment dict (c :: rest) =
        w :: fstSegment dict ((c :: rest).drop w.length)) ∧
    (∀ (c : Char) (rest : List Char),
      bestDictEntry dict (c :: rest) = none →
      fstSegment dict (c :: rest) = [c] :: fstSegment dict rest) ∧
    (∀ w, bestDictEntry dict s = some w →
      w ∈ dict ∧ w.isPrefixOf s = true ∧
        ∀ v ∈ dict, v ≠ [] → v.isPrefixOf s = true →
          v.length ≤ w.length) ∧
    (bestDictEntry dict s = none →
      ∀ v ∈ dict, v ≠ [] → ¬ (v.isPrefixOf s = true)) ∧
    fstSegment ["ab".data, "abc".data, "c".data] ("abcd".data) =
      ["abc".data, "d".data] := by
  refine ⟨rfl, fstSegment_step_some dict, fstSegment_step_none dict,
    ?_, bestDictEntry_none dict s, by decide⟩
  intro w hw
  obtain ⟨h1, _, h3, h4⟩ := bestDictEntry_some dict s w hw
  exact ⟨h1, h3, h4⟩

/-- C8 witness: the longest-match theorem applied on the toy dictionary,
discharging the query hypotheses at position 0 of `"abcd"`. -/
theorem c8_fst_longest_match_witness :
    fstSegment ["ab".data, "abc".data, "c".data] ("abcd".data) =
      "abc".data ::
        fstSegment ["ab".data, "abc".data, "c".data]
          (("abcd".data).drop ("abc".data).length) ∧
    "abc".data ∈ ["ab".data, "abc".data, "c".data] := by
  constructor
  · exact (c8_fst_longest_match ["ab".data, "abc".data, "c".data]
      ("abcd".data)).2.1 'a' ("bcd".data) ("abc".data) (by decide)
  · exact ((c8_fst_longest_match ["ab".data, "abc".data, "c".data]
      ("abcd".data)).2.2.2.1 ("abc".data) (by decide)).1

/-- C10: a span that is exactly one of the five 2-character articles is 4
bytes long, so it passes the byte-length guard (`len() > 2`) even though
its character count is only 2, and the segmenter emits the article
followed by an empty sub-span. -/
theorem c10_article_only_span (p : List Char) (hp : p ∈ arabicArticles) :
    p.length = 2 ∧ utf8Len p = 4 ∧ ¬ (2 < p.length) ∧
      arabicSegmentStr p = [TokenItem.Simple p, TokenItem.Simple []] := by
  fin_cases hp <;> exact ⟨by decide, by decide, by decide, by decide⟩

/-- C10 witness: the article-only theorem applied to the literal span
`"ال"`. -/
theorem c10_article_only_span_witness :
    ("ال".data).length = 2 ∧ utf8Len ("ال".data) = 4 ∧
      ¬ (2 < ("ال".data).length) ∧
      arabicSegmentStr ("ال".data) =
        [TokenItem.Simple ("ال".data), TokenItem.Simple []] :=
  c10_article_only_span ("ال".data) (by decide)

theorem camelGo_spec (rest : List Char) :
    ∀ (accRev : List Char) (prev : Char), accRev.head? = some prev →
      (∃ g0 gs, camelGo accRev prev rest = g0 :: gs ∧
        g0.head? = accRev.getLast?) ∧
      (∀ g ∈ camelGo accRev prev rest, g ≠ []) ∧
      (List.Chain' (fun a b => camelBoundary a b = false) accRev.reverse →
        ∀ g ∈ camelGo accRev prev rest,
          List.Chain' (fun a b => camelBoundary a b = false) g) ∧
      List.Chain' (fun g1 g2 => ∃ a b, g1.getLast? = some a ∧
        g2.head? = some b ∧ camelBoundary a b = true)
        (camelGo accRev prev rest) := by
  induction rest with
  | nil =>
      intro accRev prev hhead
      have hne : accRev ≠ [] := by
        intro h
        rw [h] at hhead
        cases hhead
      rw [camelGo]
      refine ⟨⟨accRev.reverse, [], rfl, List.head?_reverse accRev⟩, ?_, ?_, ?_⟩
      · intro g hg
        simp at hg
        rw [hg]
        simpa using hne
      · intro hch g hg
        simp at hg
        rw [hg]
        exact hch
      · exact List.chain'_singleton _
  | cons c rest ih =>
      intro accRev prev hhead
      have hne : accRev ≠ [] := by
        intro h
        rw [h] at hhead
        cases hhead
      rw [camelGo]
      by_cases hB : camelBoundary prev c = true
      · rw [if_pos hB]
        obtain ⟨⟨g0, gs, hg0, hg0h⟩, hne2, hwithin2, hchain2⟩ := ih [c] c rfl
        refine ⟨⟨accRev.reverse, camelGo [c] c rest, rfl,
          List.head?_reverse accRev⟩, ?_, ?_, ?_⟩
        · intro g hg
          rcases List.mem_cons.mp hg with h1 | h1
          · rw [h1]; simpa using hne
          · exact hne2 g h1
        · intro hch g hg
          rcases List.mem_cons.mp hg with h1 | h1
          · rw [h1]; exact hch
          · exact hwithin2 (List.chain'_singleton c) g h1
        · rw [List.chain'_cons']
          constructor
          · intro y hy
            rw [hg0] at hy
            simp at hy
            subst hy
            refine ⟨prev, c, ?_, ?_, hB⟩
            · rw [List.getLast?_reverse]
              exact hhead
            · rw [hg0h]
              rfl
          · exact hchain2
      · rw [if_neg hB]
        have hBf : camelBoundary prev c = false := by
          revert hB
          cases camelBoundary prev c <;> simp
        obtain ⟨t, rfl⟩ : ∃ t, accRev = prev :: t := by
          cases accRev with
          | nil => cases hhead
          | cons a t =>
              simp at hhead
              rw [hhead]
              exact ⟨t, rfl⟩
        obtain ⟨⟨g0, gs, hg0, hg0h⟩, hne2, hwithin2, hchain2⟩ :=
          ih (c :: prev :: t) c rfl
        refine ⟨⟨g0, gs, hg0, ?_⟩, hne2, ?_, hchain2⟩
        · rw [hg0h, List.getLast?_cons_cons]
        · intro hch
          apply hwithin2
          rw [List.reverse_cons]
          rw [List.chain'_append]
          refine ⟨hch, List.chain'_singleton c, ?_⟩
          intro x hx y hy
          rw [List.getLast?_reverse] at hx
          simp at hx hy
          rw [← hx, ← hy]
          exact hBf

/-- C9: with the camel-case option enabled the Latin segmenter cuts a
span exactly at `camelBoundary` transitions (lowercase-to-uppercase, and
letter/digit alternations): the chunks are non-empty, contain no boundary
internally, meet exactly at boundaries, and concatenate back to the span;
`"camelCase"` becomes `["camel", "Case"]` while `"kebab-case"` is returned
unchanged by the segmenter alone. -/
theorem c9_camel_case :
    splitCamelCaseBounds ("camelCase".data) = ["camel".data, "Case".data] ∧
    splitCamelCaseBounds ("kebab-case".data) = ["kebab-case".data] ∧
    latinSegmentStr ("camelCase".data) =
      [TokenItem.Simple ("camel".data), TokenItem.Simple ("Case".data)] ∧
    (∀ s, (splitCamelCaseBounds s).flatten = s) ∧
    (∀ s, ∀ g ∈ splitCamelCaseBounds s,
      g ≠ [] ∧ List.Chain' (fun a b => camelBoundary a b = false) g) ∧
    (∀ s, List.Chain' (fun g1 g2 => ∃ a b, g1.getLast? = some a ∧
      g2.head? = some b ∧ camelBoundary a b = true)
      (splitCamelCaseBounds s)) := by
  refine ⟨by decide, by decide, by decide, splitCamelCaseBounds_join,
    ?_, ?_⟩
  · intro s g hg
    cases s with
    | nil => cases hg
    | cons c rest =>
        rw [splitCamelCaseBounds] at hg
        obtain ⟨_, hne2, hwithin2, _⟩ := camelGo_spec rest [c] c rfl
        exact ⟨hne2 g hg, hwithin2 (List.chain'_singleton c) g hg⟩
  · intro s
    cases s with
    | nil => simp [splitCamelCaseBounds]
    | cons c rest =>
        rw [splitCamelCaseBounds]
        obtain ⟨_, _, _, hchain2⟩ := camelGo_spec rest [c] c rfl
        exact hchain2

/-- C9 witness: the camel-case theorem's per-chunk properties applied to
the concrete chunk `"camel"` of `"camelCase"`. -/
theorem c9_camel_case_witness :
    ("camel".data ≠ [] ∧
      List.Chain' (fun a b => camelBoundary a b = false) ("camel".data)) :=
  c9_camel_case.2.2.2.2.1 ("camelCase".data) ("camel".data) (by decide)

end Charabia
